import Mathlib

/-!
Verification of the JSON flattening engine of `json-table-editor`
(`src/parser/mod.rs`): the facade operations `change_depth`, `as_array` and
`filter_non_null_column`, over a shallow embedding of the data model.

Modelling conventions, fixed once here:

* Strings are modelled at the character level (`String.data : List Char`);
  Rust's byte slicing `&s[a..b]` becomes `List.take`/`List.drop` on
  characters, and its out-of-range panic (`a > b`) becomes the `panic`
  outcome below.  For the ASCII pointers the code manipulates the two views
  coincide.
* `usize` subtraction `len - 1` is modelled with release-profile wrapping
  (`usizeSub1`): `0 - 1` wraps to `2^64 - 1`.
* Positions and `column_id` of `PointerKey` are not modelled: no line of
  `src/parser/mod.rs` reads them, so "equality ignoring position
  renumbering" is plain equality of the modelled entries.
* Rust `Result<_, String>` plus the possibility of a panic (`todo!`, index
  out of bounds, slice out of range) is modelled by `RunResult`.
* The tokenizer, the flattening parser (`parser.rs`, `my_lexer.rs`) and
  `flatten::Column` are code of the repository that is not under `src/`;
  where a claim needs them they are modelled from the spec, with a doc
  comment starting `Modelled from the spec:` on each such definition.
-/

/-- Value tags of flat entries.  `src/parser/mod.rs` matches on
`ValueType::Object`, `ValueType::Array` and `ValueType::Number` without
payloads; the remaining variants are the scalar tags from the spec's data
model (Null | Boolean | Number | String | Array | Object). -/
inductive ValueType where
  | null : ValueType
  | boolean : ValueType
  | number : ValueType
  | string : ValueType
  | array : ValueType
  | object : ValueType
deriving DecidableEq, Repr

/-- The key of one flat entry.  Fields are the ones `src/parser/mod.rs`
reads or writes: `pointer`, `value_type`, `depth`, `index`
(`PointerKey::from_pointer_and_index` sets exactly these).  `position` and
`column_id` are never read by the code under verification and are omitted. -/
structure PointerKey where
  pointer : String
  value_type : ValueType
  depth : Nat
  index : Nat
deriving DecidableEq, Repr

/-- A JSON document, used to model the parts of the engine whose source is
not under `src/` (the flattening parser). -/
inductive JsonValue where
  | null : JsonValue
  | bool (b : Bool) : JsonValue
  | num (s : String) : JsonValue
  | str (s : String) : JsonValue
  | arr (elems : List JsonValue) : JsonValue
  | obj (fields : List (String × JsonValue)) : JsonValue

/-- The raw value stored with an entry (Rust `Option<String>` holds either a
scalar lexeme or the verbatim text of an unexpanded container).
Modelled from the spec: the raw text of an opaque container is represented
by the JSON value it denotes (`raw`), since parsing is specified to be
all-or-nothing and to recover exactly the document (§4.2, §7); scalar
lexemes stay strings (`lit`). -/
inductive RawVal where
  | lit (s : String) : RawVal
  | raw (v : JsonValue) : RawVal

/-- One flat entry: `(PointerKey, Option<String>)` in the source. -/
abbrev Entry := PointerKey × Option RawVal

/-- `FlatJsonValue` is the ordered entry list (a `Vec` in the source). -/
abbrev FlatJsonValue := List Entry

/-- Outcome of one parse, with the fields of `ParseResult` that
`src/parser/mod.rs` reads and rebuilds. -/
structure ParseResult where
  json : FlatJsonValue
  max_json_depth : Nat
  parsing_max_depth : Nat
  root_value_type : ValueType
  started_parsing_at : Option String
  root_array_len : Nat

/-- `ParseOptions` from `src/parser/mod.rs`. -/
structure ParseOptions where
  parse_array : Bool
  max_depth : Nat
  start_parse_at : Option String

/-- `ParseOptions::default()`. -/
def ParseOptions.default : ParseOptions :=
  { parse_array := true, max_depth := 10, start_parse_at := none }

/-- One row of the array view (`JsonArrayEntries`). -/
structure JsonArrayEntries where
  entries : FlatJsonValue
  index : Nat

/-- Modelled from the spec: `flatten::Column` is declared outside `src/`.
Per §3 a Column is `{name, depth}` and its identity (equality) is exactly
the `(name, depth)` pair — value and row are irrelevant — which the two
fields below realise as structural equality. -/
structure Column where
  name : String
  depth : Nat
deriving DecidableEq, Repr

/-- Result of running one facade operation: a Rust `Ok`, a Rust `Err(String)`,
or a panic (`todo!()`, integer-overflow in debug, slice out of range, index
out of bounds). -/
inductive RunResult (α : Type) where
  | panic : RunResult α
  | err (msg : String) : RunResult α
  | ok (val : α) : RunResult α
deriving DecidableEq

/-- `usize` subtraction by one with release-profile two's-complement
wrapping: `0 - 1 = 2^64 - 1`.  (Lists longer than `2^64` do not arise from
Rust vectors.) -/
def usizeSub1 (n : Nat) : Nat := if n = 0 then 2 ^ 64 - 1 else n - 1

/-- Rust `str::starts_with`, at the character level. -/
def strStartsWith (s pre : String) : Bool := pre.data.isPrefixOf s.data

/-! ## The modelled flattening parser

Modelled from the spec: `Parser::parse` (in `src/parser/parser.rs`, not
under `src/`) per §4.2 and the §8 scenarios.  `flattenAt md d p w` emits the
entries for the value `w` located at pointer `p`, where `d` is the depth
recorded on `w`'s own entry; a container is expanded (children at depth
`d + 1`) iff `d < md`, and is otherwise kept opaque as a single entry whose
value is its raw text.  Expanded containers emit only their descendants'
entries (§8 truncation scenario); the root of a parse is always expanded,
and an array root additionally emits one leading entry at the root pointer
(§3: a `None` value can mean a container whose children follow as separate
entries).  `parse_array = true` semantics; the `start_parse_at` option is
not modelled (the claims use `None`). -/

mutual

/-- Modelled from the spec: entries for value `w` at pointer `p`, depth `d`. -/
def flattenAt (md d : Nat) (p : String) : JsonValue → List Entry
  | .null => [(⟨p, .null, d, 0⟩, none)]
  | .bool b => [(⟨p, .boolean, d, 0⟩, some (.lit (if b then "true" else "false")))]
  | .num s => [(⟨p, .number, d, 0⟩, some (.lit s))]
  | .str s => [(⟨p, .string, d, 0⟩, some (.lit s))]
  | .arr xs =>
    if d < md then flattenArr md (d + 1) p 0 xs
    else [(⟨p, .array, d, 0⟩, some (.raw (.arr xs)))]
  | .obj kvs =>
    if d < md then flattenObj md (d + 1) p kvs
    else [(⟨p, .object, d, 0⟩, some (.raw (.obj kvs)))]

/-- Modelled from the spec: entries of array elements, `i` the next index. -/
def flattenArr (md d : Nat) (p : String) (i : Nat) : List JsonValue → List Entry
  | [] => []
  | x :: xs => flattenAt md d (p ++ "/" ++ Nat.repr i) x ++ flattenArr md d p (i + 1) xs

/-- Modelled from the spec: entries of object fields. -/
def flattenObj (md d : Nat) (p : String) : List (String × JsonValue) → List Entry
  | [] => []
  | (k, w) :: kvs => flattenAt md d (p ++ "/" ++ k) w ++ flattenObj md d p kvs

end

mutual

/-- Modelled from the spec: true nesting depth of the document
(`max_json_depth`, tracked even inside non-expanded containers). -/
def jsonDepth : JsonValue → Nat
  | .null | .bool _ | .num _ | .str _ => 1
  | .arr xs => 1 + jsonDepthList xs
  | .obj kvs => 1 + jsonDepthObj kvs

/-- Modelled from the spec: depth of a list of array elements. -/
def jsonDepthList : List JsonValue → Nat
  | [] => 0
  | x :: xs => max (jsonDepth x) (jsonDepthList xs)

/-- Modelled from the spec: depth of a list of object fields. -/
def jsonDepthObj : List (String × JsonValue) → Nat
  | [] => 0
  | (_, v) :: kvs => max (jsonDepth v) (jsonDepthObj kvs)

end

/-- Root value tag of a document. -/
def rootType : JsonValue → ValueType
  | .null => .null
  | .bool _ => .boolean
  | .num _ => .number
  | .str _ => .string
  | .arr _ => .array
  | .obj _ => .object

/-- Modelled from the spec: a parse rooted below the document, as invoked by
`change_depth` (`parser.parse(&opts, depth_offset, Some(pointer))`): the
sub-document's root is always expanded, members at depth `δ` with pointers
extending `ptr`; an array root emits its leading entry at `ptr`. -/
def subParseAt (md δ : Nat) (ptr : String) : JsonValue → List Entry
  | .null => [(⟨ptr, .null, δ, 0⟩, none)]
  | .bool b => [(⟨ptr, .boolean, δ, 0⟩, some (.lit (if b then "true" else "false")))]
  | .num s => [(⟨ptr, .number, δ, 0⟩, some (.lit s))]
  | .str s => [(⟨ptr, .string, δ, 0⟩, some (.lit s))]
  | .arr xs => (⟨ptr, .array, δ, 0⟩, none) :: flattenArr md δ ptr 0 xs
  | .obj kvs => flattenObj md δ ptr kvs

/-- `root_array_len` recorded by a parse (0 when the root is not an array). -/
def rootLen : JsonValue → Nat
  | .arr xs => xs.length
  | _ => 0

/-- Modelled from the spec: the facade's `parse` (`JSONParser::parse`, which
runs `self.parser.parse(&options, 1, None)`): root members at depth 1. -/
def parseDoc (opts : ParseOptions) (v : JsonValue) : ParseResult :=
  { json := subParseAt opts.max_depth 1 "" v
    max_json_depth := jsonDepth v
    parsing_max_depth := opts.max_depth
    root_value_type := rootType v
    started_parsing_at := opts.start_parse_at
    root_array_len := rootLen v }

/-! ## `JSONParser::change_depth` (src/parser/mod.rs, lines 86-114) -/

/-- The re-lex of one stored raw value performed by `change_depth`
(`Parser::new(Lexer::new(v.as_bytes_mut())).parse(&opts, depth+1,
Some(pointer))`).  A `raw` payload re-parses to the flattening of the stored
container; a `lit` payload is a scalar lexeme, not a serialized document,
and is modelled as the parse error the lexer would produce (unreachable for
well-formed parse results, where Object-typed entries hold container text). -/
def subParseVal (opts : ParseOptions) (δ : Nat) (ptr : String) : RawVal → Except String (List Entry)
  | .raw v => .ok (subParseAt opts.max_depth δ ptr v)
  | .lit s => .error ("cannot parse value at " ++ ptr ++ ": " ++ s)

/-- One iteration of `change_depth`'s loop over the previous entries:
an entry that is not Object-typed, or lies deeper than the new limit
(`k.depth > parse_options.max_depth as u8` — note the `as u8` truncation),
is pushed unchanged; an Object-typed entry within the limit is re-lexed when
it holds a stored value, and is otherwise dropped (the `else if let Some`
with no `else`). -/
def expandEntry (opts : ParseOptions) (e : Entry) : Except String (List Entry) :=
  if ¬(e.1.value_type = .object) ∨ e.1.depth > opts.max_depth % 256 then .ok [e]
  else
    match e.2 with
    | some w => subParseVal opts (e.1.depth + 1) e.1.pointer w
    | none => .ok []

/-- `change_depth`'s whole loop: each entry contributes its expansion, in
order; the first re-lex error aborts (the `?` operator). -/
def expandEntries (opts : ParseOptions) : List Entry → Except String (List Entry)
  | [] => .ok []
  | e :: es =>
    match expandEntry opts e with
    | .error m => .error m
    | .ok xs =>
      match expandEntries opts es with
      | .error m => .error m
      | .ok ys => .ok (xs ++ ys)

/-- `JSONParser::change_depth`.  Increase: rebuild the entry list through
`expandEntries`.  Decrease: the source is `todo!("")`, which panics.
Equal: return the input unchanged. -/
def changeDepth (prev : ParseResult) (opts : ParseOptions) : RunResult ParseResult :=
  if prev.parsing_max_depth < opts.max_depth then
    match expandEntries opts prev.json with
    | .error e => .err e
    | .ok nj =>
      .ok { json := nj
            max_json_depth := prev.max_json_depth
            parsing_max_depth := opts.max_depth
            root_value_type := prev.root_value_type
            started_parsing_at := prev.started_parsing_at
            root_array_len := prev.root_array_len }
  else if opts.max_depth < prev.parsing_max_depth then .panic
  else .ok prev

/-! ## `JSONParser::as_array` (src/parser/mod.rs, lines 116-174) -/

/-- The row prefix for index `i`:
`concat_string!(started_parsing_at, "/", i)` when a start pointer exists,
else `concat_string!("/", i)`. -/
def prefixFor (started : Option String) (i : Nat) : String :=
  match started with
  | some s => s ++ "/" ++ Nat.repr i
  | none => "/" ++ Nat.repr i

/-- `unique_keys` insertion: `if !unique_keys.contains(&column) { push }`. -/
def insertCol (cols : List Column) (c : Column) : List Column :=
  if c ∈ cols then cols else cols ++ [c]

/-- `k.index = i` on a popped entry before it joins the row. -/
def setIdx (i : Nat) (e : Entry) : Entry :=
  ({ e.1 with index := i }, e.2)

/-- The synthesized `#` pseudo-entry pushed on a row's first matching entry:
pointer is chars `0..prefix_len` of the examined key plus `"/#"`,
`ValueType::Number`, the examined entry's depth, index `i`, value
`Some(i.to_string())`. -/
def hashEntryOf (k : PointerKey) (plen i : Nat) : Entry :=
  (⟨⟨k.pointer.data.take plen⟩ ++ "/#", .number, k.depth, i⟩, some (.lit (Nat.repr i)))

/-- The inner `loop` of `as_array`, structurally recursive on `j`.
Faithful to the source line by line:
guard `j > 0 && !json.is_empty()`; examine `json[j]` (index out of bounds
panics); for a non-empty pointer slice `&pointer[prefix_len..len]`
(panics when `prefix_len > len`) and record the column; on a prefix match
push the `#` entry first if this is the row's first entry, then pop the
last entry, set its index to `i`, push it, decrement `j` and continue;
otherwise break.  Returns the remaining entries, `j`, the column
accumulator and the row's entries. -/
def rowLoop (started : Option String) (i : Nat) :
    Nat → List Entry → List Column → List Entry → Bool →
    RunResult (List Entry × Nat × List Column × List Entry)
  | 0, json, cols, acc, _ => .ok (json, 0, cols, acc)
  | j + 1, [], cols, acc, _ => .ok ([], j + 1, cols, acc)
  | j + 1, json@(_ :: _), cols, acc, first =>
    match json.get? (j + 1) with
    | none => .panic
    | some (k, _v) =>
      let pre := prefixFor started i
      let plen := pre.length
      let matchPre := strStartsWith k.pointer pre
      if k.pointer = "" then
        if matchPre then
          let acc1 := if first then acc ++ [hashEntryOf k plen i] else acc
          match json.getLast? with
          | none => .panic
          | some (kl, vl) =>
            rowLoop started i j json.dropLast cols (acc1 ++ [setIdx i (kl, vl)]) false
        else .ok (json, j + 1, cols, acc)
      else if plen > k.pointer.length then .panic
      else
        let cols1 := insertCol cols ⟨⟨k.pointer.data.drop plen⟩, k.depth⟩
        if matchPre then
          let acc1 := if first then acc ++ [hashEntryOf k plen i] else acc
          match json.getLast? with
          | none => .panic
          | some (kl, vl) =>
            rowLoop started i j json.dropLast cols1 (acc1 ++ [setIdx i (kl, vl)]) false
        else .ok (json, j + 1, cols1, acc)

/-- The outer `for i in (0..root_array_len).rev()` loop of `as_array`:
rows accumulate in discovery (descending) order and are reversed at the end.
(`estimated_capacity` only pre-sizes vectors and is not modelled.) -/
def asArrayLoop (started : Option String) :
    List Nat → List Entry → Nat → List Column → List JsonArrayEntries →
    RunResult (List JsonArrayEntries × List Column)
  | [], _json, _j, cols, racc => .ok (racc.reverse, cols)
  | i :: is, json, j, cols, racc =>
    match rowLoop started i j json cols [] true with
    | .panic => .panic
    | .err e => .err e
    | .ok (json1, j1, cols1, row) =>
      asArrayLoop started is json1 j1 cols1 (racc ++ [⟨row, i⟩])

/-- `JSONParser::as_array`: fails when the root is not an array, else scans
the flat list from its tail, starting at `j = json.len() - 1` (wrapping
`usize` subtraction). -/
def asArray (pr : ParseResult) : RunResult (List JsonArrayEntries × List Column) :=
  if pr.root_value_type = .array then
    asArrayLoop pr.started_parsing_at (List.range pr.root_array_len).reverse
      pr.json (usizeSub1 pr.json.length) [] []
  else .err "Parsed json root is not an array"

/-! ## `JSONParser::filter_non_null_column` (src/parser/mod.rs, lines 176-198) -/

/-- `filter_non_null_column`: a row is kept when, for every required path
suffix, the first entry whose pointer equals
`concat_string!(prefix, "/", row.index.to_string(), suffix)` exists and its
value is not `None` (`iter().find` takes the first match; a missing entry
and a present-but-`None` entry both drop the row). -/
def filter_non_null_column (rows : List JsonArrayEntries) (pre : String)
    (nonNullCols : List String) : List JsonArrayEntries :=
  rows.filter fun row =>
    nonNullCols.all fun p =>
      match row.entries.find? (fun e => e.1.pointer = pre ++ "/" ++ Nat.repr row.index ++ p) with
      | some e => e.2.isSome
      | none => false

/-! ## Lemmas: `as_array` never returns a Rust `Err` after the root check -/

/-- The inner loop only ever exits with `ok` or `panic`: no `Err` is built
after the root-type check. -/
theorem rowLoop_not_err (started : Option String) (i : Nat) :
    ∀ (j : Nat) (json : List Entry) (cols : List Column) (acc : List Entry)
      (first : Bool) (msg : String),
      rowLoop started i j json cols acc first ≠ .err msg := by
  intro j
  induction j with
  | zero =>
    intro json cols acc first msg h
    simp [rowLoop] at h
  | succ j ih =>
    intro json cols acc first msg h
    cases json with
    | nil => simp [rowLoop] at h
    | cons a as =>
      rw [rowLoop] at h
      rcases hget : (a :: as).get? (j + 1) with _ | ⟨k, v⟩ <;> rw [hget] at h
      · exact RunResult.noConfusion h
      · dsimp only at h
        split at h
        · split at h
          · rcases hlast : (a :: as).getLast? with _ | ⟨kl, vl⟩ <;> rw [hlast] at h
            · exact RunResult.noConfusion h
            · exact ih _ _ _ _ _ h
          · exact RunResult.noConfusion h
        · split at h
          · exact RunResult.noConfusion h
          · split at h
            · rcases hlast : (a :: as).getLast? with _ | ⟨kl, vl⟩ <;> rw [hlast] at h
              · exact RunResult.noConfusion h
              · exact ih _ _ _ _ _ h
            · exact RunResult.noConfusion h

/-- The outer loop only forwards `panic` or finishes with `ok`. -/
theorem asArrayLoop_not_err (started : Option String) :
    ∀ (is : List Nat) (json : List Entry) (j : Nat) (cols : List Column)
      (racc : List JsonArrayEntries) (msg : String),
      asArrayLoop started is json j cols racc ≠ .err msg := by
  intro is
  induction is with
  | nil =>
    intro json j cols racc msg h
    simp [asArrayLoop] at h
  | cons i is ih =>
    intro json j cols racc msg h
    rw [asArrayLoop] at h
    rcases hrl : rowLoop started i j json cols [] true with _ | e | ⟨json1, j1, cols1, row⟩ <;>
      rw [hrl] at h
    · exact RunResult.noConfusion h
    · exact rowLoop_not_err started i j json cols [] true e hrl
    · exact ih _ _ _ _ _ h

/-- C9: `as_array` fails with the type error (an `Err`, producing no rows or
columns) exactly when the input's `root_value_type` is not Array; after the
root check no other `Err` can arise, so this is the only refusal reason. -/
theorem asArray_type_error_iff (pr : ParseResult) :
    (∃ msg, asArray pr = .err msg) ↔ pr.root_value_type ≠ ValueType.array := by
  constructor
  · rintro ⟨msg, h⟩ hroot
    rw [asArray, if_pos hroot] at h
    exact asArrayLoop_not_err _ _ _ _ _ _ _ h
  · intro hroot
    refine ⟨"Parsed json root is not an array", ?_⟩
    rw [asArray, if_neg hroot]

/-- Witness for C9 at a concrete non-array input (an object root): the
refusal really occurs. -/
theorem asArray_type_error_iff_witness :
    ∃ msg, asArray ⟨[], 1, 10, ValueType.object, none, 0⟩ = .err msg :=
  (asArray_type_error_iff ⟨[], 1, 10, ValueType.object, none, 0⟩).mpr (by decide)

/-- C2 (the code as written): requesting a depth strictly below the previous
parsing depth reaches `todo!("")`, i.e. a panic — not an
`UnsupportedOperation` error as the spec requires. -/
theorem change_depth_reduction_panics (prev : ParseResult) (opts : ParseOptions)
    (h : opts.max_depth < prev.parsing_max_depth) :
    changeDepth prev opts = .panic := by
  rw [changeDepth, if_neg (by omega), if_pos h]

/-- Witness for C2: the panic at a concrete input
(`parsing_max_depth = 2`, requested `max_depth = 1`). -/
theorem change_depth_reduction_panics_witness :
    changeDepth ⟨[], 1, 2, ValueType.object, none, 0⟩ ⟨true, 1, none⟩ = .panic :=
  change_depth_reduction_panics _ _ (by decide)

/-- C8: requesting the same depth is a no-op returning `Ok` with the input
unchanged (all fields, whole entry sequence). -/
theorem change_depth_same_depth_noop (prev : ParseResult) (opts : ParseOptions)
    (h : opts.max_depth = prev.parsing_max_depth) :
    changeDepth prev opts = .ok prev := by
  rw [changeDepth, if_neg (by omega), if_neg (by omega)]

/-- Witness for C8 at a concrete input with a non-trivial entry list. -/
theorem change_depth_same_depth_noop_witness :
    changeDepth ⟨[(⟨"/a", ValueType.number, 1, 0⟩, some (.lit "1"))], 1, 3, ValueType.object, none, 0⟩
        ⟨true, 3, none⟩ =
      .ok ⟨[(⟨"/a", ValueType.number, 1, 0⟩, some (.lit "1"))], 1, 3, ValueType.object, none, 0⟩ :=
  change_depth_same_depth_noop _ _ (by decide)

/-! ## Concrete inputs refuting claims as stated -/

/-- An array-rooted Parse Result whose flat list has no leading root entry:
its single entry sits at position 0, which the scan guard `j > 0` never
examines. -/
def prNoRootEntry : ParseResult :=
  { json := [(⟨"/0/a", ValueType.number, 1, 0⟩, some (.lit "1"))]
    max_json_depth := 2, parsing_max_depth := 10
    root_value_type := ValueType.array, started_parsing_at := none
    root_array_len := 1 }

/-- C1 counterexample: on `prNoRootEntry` the union of all returned rows'
entries is empty — the input's only entry is lost (never examined, since
`j` starts at `len - 1 = 0` and the loop requires `j > 0`) and the single
returned row receives no synthesized `#` entry either, refuting both halves
of the claimed partition equality. -/
theorem asArray_loses_first_entry :
    ∃ rows cols, asArray prNoRootEntry = .ok (rows, cols) ∧
      List.flatten (rows.map JsonArrayEntries.entries) = [] ∧
      rows.length = 1 ∧
      prNoRootEntry.json.length = 1 ∧
      prNoRootEntry.root_value_type = ValueType.array :=
  ⟨_, _, rfl, rfl, rfl, rfl, rfl⟩

/-- A Parse Result holding one expanded-object marker entry
(`ValueType::Object` with value `None` — per §3 a container whose children
are emitted as separate entries), at depth within any new limit. -/
def prObjMarker : ParseResult :=
  { json := [(⟨"/x", ValueType.object, 1, 0⟩, none)]
    max_json_depth := 2, parsing_max_depth := 1
    root_value_type := ValueType.object, started_parsing_at := none
    root_array_len := 0 }

/-- C3 counterexample: increasing the depth from 1 to 2 on `prObjMarker`
silently removes its already-expanded Object entry (the loop's
`else if let Some(v)` has no `else`, so an Object entry with `None` value
within the new limit is neither pushed nor re-expanded), refuting "no
previously emitted entry is removed". -/
theorem change_depth_drops_expanded_object_marker :
    ∃ res, changeDepth prObjMarker ⟨true, 2, none⟩ = .ok res ∧
      prObjMarker.parsing_max_depth < 2 ∧
      prObjMarker.json.head? = some (⟨"/x", ValueType.object, 1, 0⟩, none) ∧
      res.json = [] :=
  ⟨_, rfl, by decide, rfl, rfl⟩

/-- The document `[[1]]`: a nested array truncated at depth 1. -/
def docNestedArr : JsonValue := .arr [.arr [.num "1"]]

/-- C4 counterexample: `change_depth(parse(max_depth=1), max_depth=2)` on
`[[1]]` keeps the inner array opaque at pointer `/0` (the loop re-expands
only `ValueType::Object` stubs, never Array stubs), while parsing directly
with `max_depth=2` expands it to `/0/0`; the two entry sequences differ in
their pointers, not merely in position numbering. -/
theorem change_depth_keeps_opaque_array_stub :
    ∃ res, changeDepth (parseDoc ⟨true, 1, none⟩ docNestedArr) ⟨true, 2, none⟩ = .ok res ∧
      res.json.map (fun e => e.1.pointer) = ["", "/0"] ∧
      (parseDoc ⟨true, 2, none⟩ docNestedArr).json.map (fun e => e.1.pointer) = ["", "/0/0"] :=
  ⟨_, rfl, rfl, rfl⟩

/-- An ordinary 11-element array view: elements 0-9 are scalars (pointer
`"/k"`, two characters), element 10 is an object with one field.  All
entries are exactly what the modelled parse of
`[0,1,...,9,{"a":7}]` produces. -/
def prElevenRows : ParseResult :=
  { json := (⟨"", ValueType.array, 1, 0⟩, none) ::
      (List.range 10).map
        (fun k => ((⟨"/" ++ Nat.repr k, ValueType.number, 1, 0⟩,
          some (.lit (Nat.repr k))) : Entry)) ++
      [(⟨"/10/a", ValueType.number, 2, 0⟩, some (.lit "7"))]
    max_json_depth := 2, parsing_max_depth := 10
    root_value_type := ValueType.array, started_parsing_at := none
    root_array_len := 11 }

/-- C10 counterexample: `as_array` panics on `prElevenRows`.  Scanning row
`i = 10` pops `/10/a` and then examines the non-matching entry `/9`; the
slice `&"/9"[3..2]` (prefix length 3 of `"/10"`, pointer length 2) is out
of range and panics, so `as_array` is not total on array-rooted inputs. -/
theorem asArray_panics_on_short_pointer :
    asArray prElevenRows = .panic ∧
      prElevenRows.root_value_type = ValueType.array :=
  ⟨rfl, rfl⟩

/-! ## `change_depth` increase: helper lemmas -/

/-- An entry that is not Object-typed, or deeper than the (truncated) new
limit, is pushed through unchanged. -/
theorem expandEntry_keep (opts : ParseOptions) (e : Entry)
    (h : ¬(e.1.value_type = .object) ∨ e.1.depth > opts.max_depth % 256) :
    expandEntry opts e = .ok [e] := by
  rw [expandEntry, if_pos h]

/-- An Object-typed entry within the limit that stores a raw container is
replaced by the sub-parse of that container. -/
theorem expandEntry_objRaw (opts : ParseOptions) (e : Entry) (w : JsonValue)
    (h1 : e.1.value_type = .object) (h2 : e.1.depth ≤ opts.max_depth % 256)
    (hw : e.2 = some (.raw w)) :
    expandEntry opts e = .ok (subParseAt opts.max_depth (e.1.depth + 1) e.1.pointer w) := by
  rw [expandEntry, if_neg (by push_neg; exact ⟨h1, h2⟩), hw]
  rfl

/-- An Object-typed entry within the limit holding `None` is dropped. -/
theorem expandEntry_objNone (opts : ParseOptions) (e : Entry)
    (h1 : e.1.value_type = .object) (h2 : e.1.depth ≤ opts.max_depth % 256)
    (hw : e.2 = none) :
    expandEntry opts e = .ok [] := by
  rw [expandEntry, if_neg (by push_neg; exact ⟨h1, h2⟩), hw]

/-- The loop concatenates per-entry expansions. -/
theorem expandEntries_append (opts : ParseOptions) :
    ∀ (l1 l2 o1 o2 : List Entry), expandEntries opts l1 = .ok o1 →
      expandEntries opts l2 = .ok o2 →
      expandEntries opts (l1 ++ l2) = .ok (o1 ++ o2) := by
  intro l1
  induction l1 with
  | nil =>
    intro l2 o1 o2 h1 h2
    simp only [expandEntries] at h1
    cases h1
    simpa using h2
  | cons a as ih =>
    intro l2 o1 o2 h1 h2
    simp only [expandEntries] at h1
    rcases ha : expandEntry opts a with ea | xs <;> rw [ha] at h1
    · exact Except.noConfusion h1
    · rcases has : expandEntries opts as with eb | ys <;> rw [has] at h1
      · exact Except.noConfusion h1
      · cases h1
        have hrec := ih l2 ys o2 has h2
        rw [List.cons_append]
        simp only [expandEntries, ha]
        rw [hrec, List.append_assoc]

/-- A singleton input expands to its entry's own expansion. -/
theorem expandEntries_single (opts : ParseOptions) (e : Entry) (xs : List Entry)
    (h : expandEntry opts e = .ok xs) :
    expandEntries opts [e] = .ok xs := by
  simp only [expandEntries, h, List.append_nil]

/-- Cons form of the loop. -/
theorem expandEntries_cons (opts : ParseOptions) (e : Entry) (l xs ys : List Entry)
    (h : expandEntry opts e = .ok xs) (hl : expandEntries opts l = .ok ys) :
    expandEntries opts (e :: l) = .ok (xs ++ ys) := by
  simp only [expandEntries, h, hl]

/-- Everything a member entry expands to is in the loop's output. -/
theorem expandEntries_mem (opts : ParseOptions) :
    ∀ (l out : List Entry), expandEntries opts l = .ok out →
      ∀ e ∈ l, ∀ xs, expandEntry opts e = .ok xs → ∀ x ∈ xs, x ∈ out := by
  intro l
  induction l with
  | nil =>
    intro out _ e he
    exact absurd he (List.not_mem_nil e)
  | cons a as ih =>
    intro out h e he xs hxs x hx
    simp only [expandEntries] at h
    rcases ha : expandEntry opts a with ea | la <;> rw [ha] at h
    · exact Except.noConfusion h
    · rcases has : expandEntries opts as with eb | lb <;> rw [has] at h
      · exact Except.noConfusion h
      · cases h
        rcases List.mem_cons.mp he with rfl | hmem
        · rw [ha] at hxs
          cases hxs
          exact List.mem_append_left _ hx
        · exact List.mem_append_right _ (ih lb has e hmem xs hxs x hx)

/-- C3 (amended): when `change_depth` increases the depth and succeeds,
every entry that is not Object-typed or lies deeper than the (u8-truncated)
new limit is still present in the output, and for every Object-typed entry
within the limit that stores raw container text, all entries of its re-parse
are present in the output.  (The claim as stated fails only for
already-expanded Object marker entries — `ValueType::Object` with `None`
value within the new limit — which the loop removes; see the
counterexample.) -/
theorem change_depth_additive_amended (prev : ParseResult) (opts : ParseOptions)
    (res : ParseResult)
    (hlt : prev.parsing_max_depth < opts.max_depth)
    (hok : changeDepth prev opts = .ok res) :
    (∀ e ∈ prev.json,
        (¬(e.1.value_type = .object) ∨ e.1.depth > opts.max_depth % 256) →
        e ∈ res.json) ∧
    (∀ e ∈ prev.json, ∀ w : JsonValue, e.1.value_type = .object →
        e.1.depth ≤ opts.max_depth % 256 → e.2 = some (.raw w) →
        ∀ x ∈ subParseAt opts.max_depth (e.1.depth + 1) e.1.pointer w,
          x ∈ res.json) := by
  rw [changeDepth, if_pos hlt] at hok
  rcases hex : expandEntries opts prev.json with msg | nj <;> rw [hex] at hok
  · exact RunResult.noConfusion hok
  · cases hok
    constructor
    · intro e he hkeep
      exact expandEntries_mem opts prev.json nj hex e he [e]
        (expandEntry_keep opts e hkeep) e (List.mem_singleton_self e)
    · intro e he w h1 h2 hw x hx
      exact expandEntries_mem opts prev.json nj hex e he _
        (expandEntry_objRaw opts e w h1 h2 hw) x hx

/-- Concrete input for the C3 witness: one scalar entry and one opaque
Object stub, parsed at depth 1. -/
def prMixed : ParseResult :=
  { json := [(⟨"/a", ValueType.number, 1, 0⟩, some (.lit "5")),
             (⟨"/b", ValueType.object, 1, 0⟩, some (.raw (.obj [("c", .num "9")])))]
    max_json_depth := 3, parsing_max_depth := 1
    root_value_type := ValueType.object, started_parsing_at := none
    root_array_len := 0 }

/-- Witness for the amended C3 at `prMixed`: the scalar entry survives the
depth increase and the stub's expansion entry `/b/c` appears. -/
theorem change_depth_additive_amended_witness :
    ∃ res, changeDepth prMixed ⟨true, 2, none⟩ = .ok res ∧
      ((⟨"/a", ValueType.number, 1, 0⟩, some (RawVal.lit "5")) : Entry) ∈ res.json ∧
      ((⟨"/b/c", ValueType.number, 2, 0⟩, some (RawVal.lit "9")) : Entry) ∈ res.json := by
  refine ⟨_, rfl, ?_, ?_⟩
  · exact (change_depth_additive_amended prMixed ⟨true, 2, none⟩ _ (by decide) rfl).1
      _ (List.mem_cons_self _ _) (Or.inl (by decide))
  · exact (change_depth_additive_amended prMixed ⟨true, 2, none⟩ _ (by decide) rfl).2
      _ (List.mem_cons_of_mem _ (List.mem_cons_self _ _)) (.obj [("c", .num "9")])
      rfl (by decide) rfl _ (List.Mem.head _)

/-! ## Depth-monotonic re-expansion (C4) -/

mutual

/-- Modelled from the spec: documents whose arrays (below the root) all sit
at nesting levels expanded by a parse at depth `md` — precisely the
documents for which a parse at `md` leaves no opaque Array stub, which
`change_depth` would be unable to re-expand. -/
def arrShallow (md d : Nat) : JsonValue → Bool
  | .null | .bool _ | .num _ | .str _ => true
  | .arr xs => decide (d < md) && arrShallowList md (d + 1) xs
  | .obj kvs => if d < md then arrShallowObj md (d + 1) kvs else true

/-- `arrShallow` over array elements. -/
def arrShallowList (md d : Nat) : List JsonValue → Bool
  | [] => true
  | x :: xs => arrShallow md d x && arrShallowList md d xs

/-- `arrShallow` over object fields. -/
def arrShallowObj (md d : Nat) : List (String × JsonValue) → Bool
  | [] => true
  | (_, w) :: kvs => arrShallow md d w && arrShallowObj md d kvs

end

/-- `arrShallow` at the root, where containers always expand. -/
def docArrShallow (md : Nat) : JsonValue → Bool
  | .arr xs => arrShallowList md 1 xs
  | .obj kvs => arrShallowObj md 1 kvs
  | _ => true

mutual

/-- Re-expanding the depth-`md1` flattening of `v` with a larger limit
yields the direct flattening at the larger limit, for documents without
deep arrays. -/
theorem expand_flattenAt (opts : ParseOptions) (md1 : Nat)
    (hge : 1 ≤ md1) (hlt : md1 < opts.max_depth) (h255 : opts.max_depth ≤ 255) :
    ∀ (v : JsonValue) (d : Nat) (p : String), d ≤ md1 → arrShallow md1 d v = true →
      expandEntries opts (flattenAt md1 d p v) = .ok (flattenAt opts.max_depth d p v)
  | .null, d, p, _, _ => by
    simp only [flattenAt]
    exact expandEntries_single _ _ _ (expandEntry_keep _ _ (Or.inl (by simp)))
  | .bool b, d, p, _, _ => by
    simp only [flattenAt]
    exact expandEntries_single _ _ _ (expandEntry_keep _ _ (Or.inl (by simp)))
  | .num s, d, p, _, _ => by
    simp only [flattenAt]
    exact expandEntries_single _ _ _ (expandEntry_keep _ _ (Or.inl (by simp)))
  | .str s, d, p, _, _ => by
    simp only [flattenAt]
    exact expandEntries_single _ _ _ (expandEntry_keep _ _ (Or.inl (by simp)))
  | .arr xs, d, p, hd, hs => by
    simp only [arrShallow, Bool.and_eq_true, decide_eq_true_eq] at hs
    obtain ⟨hdm, hlist⟩ := hs
    rw [flattenAt, if_pos hdm, flattenAt, if_pos (lt_trans hdm hlt)]
    exact expand_flattenArr opts md1 hge hlt h255 xs (d + 1) p 0 hdm hlist
  | .obj kvs, d, p, hd, hs => by
    by_cases hdm : d < md1
    · rw [flattenAt, if_pos hdm, flattenAt, if_pos (lt_trans hdm hlt)]
      rw [arrShallow, if_pos hdm] at hs
      exact expand_flattenObj opts md1 hge hlt h255 kvs (d + 1) p hdm hs
    · have hdeq : d = md1 := le_antisymm hd (not_lt.1 hdm)
      rw [flattenAt, if_neg hdm, flattenAt, if_pos (by omega)]
      refine expandEntries_single _ _ _ ?_
      rw [expandEntry_objRaw opts _ (.obj kvs) rfl ?_ rfl]
      · rfl
      · have : opts.max_depth % 256 = opts.max_depth := Nat.mod_eq_of_lt (by omega)
        simp only [this]
        omega

/-- List form of `expand_flattenAt` for array elements. -/
theorem expand_flattenArr (opts : ParseOptions) (md1 : Nat)
    (hge : 1 ≤ md1) (hlt : md1 < opts.max_depth) (h255 : opts.max_depth ≤ 255) :
    ∀ (xs : List JsonValue) (d : Nat) (p : String) (i : Nat), d ≤ md1 →
      arrShallowList md1 d xs = true →
      expandEntries opts (flattenArr md1 d p i xs) = .ok (flattenArr opts.max_depth d p i xs)
  | [], d, p, i, _, _ => by
    simp [flattenArr, expandEntries]
  | x :: xs, d, p, i, hd, hs => by
    simp only [arrShallowList, Bool.and_eq_true] at hs
    rw [flattenArr, flattenArr]
    exact expandEntries_append _ _ _ _ _
      (expand_flattenAt opts md1 hge hlt h255 x d _ hd hs.1)
      (expand_flattenArr opts md1 hge hlt h255 xs d p (i + 1) hd hs.2)

/-- List form of `expand_flattenAt` for object fields. -/
theorem expand_flattenObj (opts : ParseOptions) (md1 : Nat)
    (hge : 1 ≤ md1) (hlt : md1 < opts.max_depth) (h255 : opts.max_depth ≤ 255) :
    ∀ (kvs : List (String × JsonValue)) (d : Nat) (p : String), d ≤ md1 →
      arrShallowObj md1 d kvs = true →
      expandEntries opts (flattenObj md1 d p kvs) = .ok (flattenObj opts.max_depth d p kvs)
  | [], d, p, _, _ => by
    simp [flattenObj, expandEntries]
  | (k, w) :: kvs, d, p, hd, hs => by
    simp only [arrShallowObj, Bool.and_eq_true] at hs
    rw [flattenObj, flattenObj]
    exact expandEntries_append _ _ _ _ _
      (expand_flattenAt opts md1 hge hlt h255 w d _ hd hs.1)
      (expand_flattenObj opts md1 hge hlt h255 kvs d p hd hs.2)

end

/-- C4 (amended): for `1 ≤ d1 < d2 ≤ 255`, options `parse_array = true`
without a start pointer, and a document whose arrays below the root all lie
at nesting levels expanded already at `d1` (`docArrShallow` — forced by the
counterexample, since `change_depth` re-expands Object stubs only),
`change_depth(parse(d1), max_depth = d2)` equals `parse(max_depth = d2)`
entry-for-entry, on all fields.  Positions are not modelled (never read by
this code), so this equality is exactly "equal ignoring position
renumbering". -/
theorem change_depth_monotonic_equiv_amended (v : JsonValue) (md1 md2 : Nat)
    (hge : 1 ≤ md1) (hlt : md1 < md2) (h255 : md2 ≤ 255)
    (hsh : docArrShallow md1 v = true) :
    changeDepth (parseDoc ⟨true, md1, none⟩ v) ⟨true, md2, none⟩ =
      .ok (parseDoc ⟨true, md2, none⟩ v) := by
  have hkey : expandEntries ⟨true, md2, none⟩ (subParseAt md1 1 "" v) =
      .ok (subParseAt md2 1 "" v) := by
    cases v with
    | null =>
      exact expandEntries_single _ _ _ (expandEntry_keep _ _ (Or.inl (by simp)))
    | bool b =>
      exact expandEntries_single _ _ _ (expandEntry_keep _ _ (Or.inl (by simp)))
    | num s =>
      exact expandEntries_single _ _ _ (expandEntry_keep _ _ (Or.inl (by simp)))
    | str s =>
      exact expandEntries_single _ _ _ (expandEntry_keep _ _ (Or.inl (by simp)))
    | arr xs =>
      rw [subParseAt, subParseAt]
      exact expandEntries_cons _ _ _ _ _ (expandEntry_keep _ _ (Or.inl (by simp)))
        (expand_flattenArr ⟨true, md2, none⟩ md1 hge hlt h255 xs 1 "" 0 hge hsh)
    | obj kvs =>
      exact expand_flattenObj ⟨true, md2, none⟩ md1 hge hlt h255 kvs 1 "" hge hsh
  rw [changeDepth]
  rw [if_pos (show (parseDoc ⟨true, md1, none⟩ v).parsing_max_depth < md2 from hlt)]
  have hjson : (parseDoc ⟨true, md1, none⟩ v).json = subParseAt md1 1 "" v := rfl
  rw [hjson, hkey]
  rfl

/-- Witness for the amended C4: the truncation scenario of §8,
`{"x":{"y":1}}` from depth 1 to depth 2. -/
theorem change_depth_monotonic_equiv_amended_witness :
    changeDepth (parseDoc ⟨true, 1, none⟩ (.obj [("x", .obj [("y", .num "1")])]))
        ⟨true, 2, none⟩ =
      .ok (parseDoc ⟨true, 2, none⟩ (.obj [("x", .obj [("y", .num "1")])])) :=
  change_depth_monotonic_equiv_amended _ 1 2 (by decide) (by decide) (by decide) (by decide)

/-! ## `filter_non_null_column` (C5) -/

/-- C5: a row is kept iff every required path suffix has an entry at the
full path `prefix ++ "/" ++ index ++ suffix` whose value is non-`None`;
a row missing the path entirely and a row holding it with a `None` value
are excluded alike (both falsify the right-hand side).  The row's pointers
are assumed pairwise distinct (`iter().find` takes the first match, so
"present with a non-null value" is only well defined then; rows built by
`as_array` from a parse satisfy this). -/
theorem filter_non_null_column_spec (rows : List JsonArrayEntries) (pre : String)
    (cols : List String) (row : JsonArrayEntries)
    (hnd : (row.entries.map (fun e => e.1.pointer)).Nodup) :
    row ∈ filter_non_null_column rows pre cols ↔
      row ∈ rows ∧ ∀ p ∈ cols, ∃ e ∈ row.entries,
        e.1.pointer = pre ++ "/" ++ Nat.repr row.index ++ p ∧ e.2.isSome := by
  rw [filter_non_null_column, List.mem_filter, List.all_eq_true]
  refine and_congr_right fun _ => forall₂_congr fun p hp => ?_
  constructor
  · intro hf
    rcases hfind : row.entries.find?
        (fun e => e.1.pointer = pre ++ "/" ++ Nat.repr row.index ++ p) with _ | e
    · rw [hfind] at hf
      exact Bool.noConfusion hf
    · rw [hfind] at hf
      refine ⟨e, List.mem_of_find?_eq_some hfind, ?_, hf⟩
      have := List.find?_some hfind
      exact of_decide_eq_true this
  · rintro ⟨e, he, hp, hsome⟩
    rcases hfind : row.entries.find?
        (fun x => x.1.pointer = pre ++ "/" ++ Nat.repr row.index ++ p) with _ | e1
    · exact absurd (decide_eq_true hp) (List.find?_eq_none.mp hfind e he)
    · have he1 : e1 ∈ row.entries := List.mem_of_find?_eq_some hfind
      have hp1raw := List.find?_some hfind
      have hp1 : e1.1.pointer = pre ++ "/" ++ Nat.repr row.index ++ p :=
        of_decide_eq_true hp1raw
      have he1e : e1 = e :=
        List.inj_on_of_nodup_map hnd he1 he (by rw [hp1, hp])
      rw [hfind, he1e]
      exact hsome

/-- A row whose `/0/b` column is present but null. -/
def rowNullB : JsonArrayEntries :=
  ⟨[(⟨"/0/b", ValueType.null, 1, 0⟩, none)], 0⟩

/-- A row whose `/1/b` column is present and non-null. -/
def rowValB : JsonArrayEntries :=
  ⟨[(⟨"/1/b", ValueType.number, 1, 1⟩, some (.lit "3"))], 1⟩

/-- Witness for C5 on the §8 filter scenario: requiring `/b` keeps the row
with a value and drops the row with the null. -/
theorem filter_non_null_column_spec_witness :
    rowValB ∈ filter_non_null_column [rowNullB, rowValB] "" ["/b"] ∧
      rowNullB ∉ filter_non_null_column [rowNullB, rowValB] "" ["/b"] := by
  constructor
  · refine (filter_non_null_column_spec [rowNullB, rowValB] "" ["/b"] rowValB
      (by simp [rowValB])).mpr ?_
    refine ⟨List.mem_cons_of_mem _ (List.mem_cons_self _ _), ?_⟩
    intro p hp
    rw [List.mem_singleton] at hp
    subst hp
    exact ⟨_, List.Mem.head _, rfl, rfl⟩
  · intro hmem
    have h := (filter_non_null_column_spec [rowNullB, rowValB] "" ["/b"] rowNullB
      (by simp [rowNullB])).mp hmem
    obtain ⟨e, he, _, hsome⟩ := h.2 "/b" (List.mem_singleton_self _)
    simp only [rowNullB, List.mem_singleton] at he
    rw [he] at hsome
    exact Bool.noConfusion hsome

/-! ## The backward row partition (C1, C6, C7): structure of `as_array` -/

/-- What the scan appends for one row with block `B`: nothing when the block
is empty (no `#` entry either); otherwise the `#` pseudo-entry built from
the block's last (first-examined) entry, followed by the block's entries in
reverse order with their `index` set to `i`. -/
def rowAcc (started : Option String) (i : Nat) (first : Bool) (B : List Entry) : List Entry :=
  match B.getLast? with
  | none => []
  | some bl =>
    (if first then [hashEntryOf bl.1 (prefixFor started i).length i] else []) ++
      (B.map (setIdx i)).reverse

/-- `insertCol` only grows the list. -/
theorem insertCol_subset (cols : List Column) (c : Column) : cols ⊆ insertCol cols c := by
  rw [insertCol]
  split
  · exact fun x hx => hx
  · exact fun x hx => List.mem_append_left _ hx

/-- The inserted column is a member afterwards. -/
theorem insertCol_mem (cols : List Column) (c : Column) : c ∈ insertCol cols c := by
  rw [insertCol]
  split
  · assumption
  · exact List.mem_append_right _ (List.mem_singleton_self c)

/-- `insertCol` preserves distinctness (it skips present columns). -/
theorem insertCol_nodup (cols : List Column) (c : Column) (h : cols.Nodup) :
    (insertCol cols c).Nodup := by
  rw [insertCol]
  split
  · exact h
  · rw [List.nodup_append]
    exact ⟨h, List.nodup_singleton c, by simpa using fun hc => by simp_all⟩

/-- The prefix string is never empty. -/
theorem prefixFor_length_pos (started : Option String) (i : Nat) :
    0 < (prefixFor started i).length := by
  cases started with
  | none =>
    simp only [prefixFor, String.length_append]
    have : (0:Nat) < "/".length := by decide
    omega
  | some s =>
    simp only [prefixFor, String.length_append]
    have : (0:Nat) < "/".length := by decide
    omega

/-- Base step: `j = 0` breaks at once. -/
theorem rowLoop_zero (started : Option String) (i : Nat) (json : List Entry)
    (cols : List Column) (acc : List Entry) (first : Bool) :
    rowLoop started i 0 json cols acc first = .ok (json, 0, cols, acc) := by
  cases json <;> rfl

/-- Base step: an empty list breaks at once. -/
theorem rowLoop_nil (started : Option String) (i j : Nat)
    (cols : List Column) (acc : List Entry) (first : Bool) :
    rowLoop started i (j + 1) [] cols acc first = .ok ([], j + 1, cols, acc) := rfl

/-- Pop step: the examined entry matches the row prefix (so its pointer is
long enough and non-empty), the last entry is popped with its index set,
and the `#` entry is prepended on the row's first match. -/
theorem rowLoop_succ_pop (started : Option String) (i j : Nat) (json : List Entry)
    (cols : List Column) (acc : List Entry) (first : Bool)
    (k : PointerKey) (v : Option RawVal) (kl : PointerKey) (vl : Option RawVal)
    (hget : json.get? (j + 1) = some (k, v))
    (hlast : json.getLast? = some (kl, vl))
    (hmatch : strStartsWith k.pointer (prefixFor started i) = true)
    (hplen : (prefixFor started i).length ≤ k.pointer.length)
    (hne : ¬(k.pointer = "")) :
    rowLoop started i (j + 1) json cols acc first =
      rowLoop started i j json.dropLast
        (insertCol cols ⟨⟨k.pointer.data.drop (prefixFor started i).length⟩, k.depth⟩)
        ((if first then acc ++ [hashEntryOf k (prefixFor started i).length i] else acc) ++
          [setIdx i (kl, vl)]) false := by
  cases json with
  | nil => exact absurd hget (by simp)
  | cons a as =>
    rw [rowLoop, hget]
    simp only [hmatch, hne, if_false, if_true, not_lt.mpr hplen, ite_false, ite_true, hlast]

/-- Break step on an empty pointer: no column is recorded. -/
theorem rowLoop_succ_break_empty (started : Option String) (i j : Nat) (json : List Entry)
    (cols : List Column) (acc : List Entry) (first : Bool)
    (k : PointerKey) (v : Option RawVal)
    (hget : json.get? (j + 1) = some (k, v))
    (hmatch : strStartsWith k.pointer (prefixFor started i) = false)
    (hemp : k.pointer = "") :
    rowLoop started i (j + 1) json cols acc first = .ok (json, j + 1, cols, acc) := by
  cases json with
  | nil => exact absurd hget (by simp)
  | cons a as =>
    rw [hemp] at hmatch
    rw [rowLoop, hget]
    simp only [hemp, hmatch, if_true, ite_true, Bool.false_eq_true, if_false, ite_false]

/-- Break step on a non-matching entry with a long-enough pointer: its
column is still recorded before the loop exits. -/
theorem rowLoop_succ_break_col (started : Option String) (i j : Nat) (json : List Entry)
    (cols : List Column) (acc : List Entry) (first : Bool)
    (k : PointerKey) (v : Option RawVal)
    (hget : json.get? (j + 1) = some (k, v))
    (hmatch : strStartsWith k.pointer (prefixFor started i) = false)
    (hne : ¬(k.pointer = ""))
    (hplen : (prefixFor started i).length ≤ k.pointer.length) :
    rowLoop started i (j + 1) json cols acc first =
      .ok (json, j + 1,
        insertCol cols ⟨⟨k.pointer.data.drop (prefixFor started i).length⟩, k.depth⟩, acc) := by
  cases json with
  | nil => exact absurd hget (by simp)
  | cons a as =>
    rw [rowLoop, hget]
    simp only [hne, hmatch, if_false, ite_false, not_lt.mpr hplen, Bool.false_eq_true, ite_true]

/-- Appending one entry to a block prepends its popped form (and the `#`
entry on a first match) to the row accumulated from the rest. -/
theorem rowAcc_concat (started : Option String) (i : Nat) (first : Bool)
    (B : List Entry) (b : Entry) :
    rowAcc started i first (B ++ [b]) =
      ((if first then [hashEntryOf b.1 (prefixFor started i).length i] else []) ++
        [setIdx i b]) ++ rowAcc started i false B := by
  rw [rowAcc, List.getLast?_concat, rowAcc]
  cases hB : B.getLast? with
  | none =>
    have hBnil : B = [] := List.getLast?_eq_none_iff.mp hB
    subst hBnil
    simp
  | some bl =>
    simp [List.map_append, List.reverse_concat]

/-- Correctness of the inner loop on a well-formed tail: scanning
`pre ++ B` for row `i`, where every entry of `B` matches the row prefix
with a long-enough pointer and the last entry of `pre` (when examined, i.e.
when `pre` has at least two entries) neither matches nor can make the slice
panic, pops exactly `B`, stops with `pre` and `j = pre.length - 1` intact,
appends `rowAcc` to the accumulator, and grows the column list
monotonically, recording every popped entry's column. -/
theorem rowLoop_spec (started : Option String) (i : Nat) :
    ∀ (B : List Entry),
      (∀ e ∈ B, strStartsWith e.1.pointer (prefixFor started i) = true ∧
        (prefixFor started i).length ≤ e.1.pointer.length) →
      ∀ (pre : List Entry), pre ≠ [] →
      (∀ el, pre.getLast? = some el → 2 ≤ pre.length →
        strStartsWith el.1.pointer (prefixFor started i) = false ∧
        (el.1.pointer = "" ∨ (prefixFor started i).length ≤ el.1.pointer.length)) →
      ∀ (cols : List Column) (acc : List Entry) (first : Bool),
      ∃ cols1,
        rowLoop started i ((pre ++ B).length - 1) (pre ++ B) cols acc first =
          .ok (pre, pre.length - 1, cols1, acc ++ rowAcc started i first B) ∧
        cols ⊆ cols1 ∧ (cols.Nodup → cols1.Nodup) ∧
        ∀ e ∈ B, (⟨⟨e.1.pointer.data.drop (prefixFor started i).length⟩,
          e.1.depth⟩ : Column) ∈ cols1 := by
  intro B
  induction B using List.reverseRecOn with
  | nil =>
    intro _ pre hpre hbreak cols acc first
    rw [List.append_nil]
    rcases hn : pre.length - 1 with _ | j
    · refine ⟨cols, ?_, fun x hx => hx, fun h => h, by simp⟩
      rw [rowLoop_zero]
      simp [rowAcc]
    · have hlen2 : 2 ≤ pre.length := by
        have := List.length_pos.mpr hpre
        omega
      have hel := List.getLast?_eq_getLast_of_ne_nil hpre
      obtain ⟨hbm, hlor⟩ := hbreak _ hel hlen2
      have hget : pre.get? (j + 1) = some (pre.getLast hpre) := by
        rw [← hn, List.get?_eq_getElem?, ← List.getLast?_eq_getElem?]
        exact hel
      by_cases hemp : (pre.getLast hpre).1.pointer = ""
      · refine ⟨cols, ?_, fun x hx => hx, fun h => h, by simp⟩
        rw [rowLoop_succ_break_empty started i j pre cols acc first _ _ hget hbm hemp]
        simp [rowAcc]
      · have hlong : (prefixFor started i).length ≤ (pre.getLast hpre).1.pointer.length := by
          rcases hlor with h | h
          · exact absurd h hemp
          · exact h
        refine ⟨insertCol cols ⟨⟨(pre.getLast hpre).1.pointer.data.drop
            (prefixFor started i).length⟩, (pre.getLast hpre).1.depth⟩, ?_,
          insertCol_subset _ _, insertCol_nodup _ _, by simp⟩
        rw [rowLoop_succ_break_col started i j pre cols acc first _ _ hget hbm hemp hlong]
        simp [rowAcc]
  | append_singleton B' b ih =>
    obtain ⟨bk, bv⟩ := b
    intro hB pre hpre hbreak cols acc first
    have hB' : ∀ e ∈ B', strStartsWith e.1.pointer (prefixFor started i) = true ∧
        (prefixFor started i).length ≤ e.1.pointer.length :=
      fun e he => hB e (List.mem_append_left _ he)
    obtain ⟨hbm, hbl⟩ := hB (bk, bv) (List.mem_append_right _ (List.mem_singleton_self _))
    have hpl : 0 < pre.length := List.length_pos.mpr hpre
    have hne : ¬((bk, bv).1.pointer = "") := by
      intro h0
      have h1 := prefixFor_length_pos started i
      rw [h0] at hbl
      have h2 : ("" : String).length = 0 := rfl
      omega
    have hshape : (pre ++ (B' ++ [(bk, bv)])).length - 1 = ((pre ++ B').length - 1) + 1 := by
      simp only [List.length_append, List.length_singleton]
      omega
    have hassoc : pre ++ (B' ++ [(bk, bv)]) = (pre ++ B') ++ [(bk, bv)] := by
      rw [List.append_assoc]
    have hidx : ((pre ++ B').length - 1) + 1 = (pre ++ B').length := by
      simp only [List.length_append]
      omega
    have hget : ((pre ++ B') ++ [(bk, bv)]).get? (((pre ++ B').length - 1) + 1) =
        some (bk, bv) := by
      rw [hidx, List.get?_eq_getElem?, List.getElem?_concat_length]
    obtain ⟨cols1, hrl, hsub, hnd, hmem⟩ :=
      ih hB' pre hpre hbreak
        (insertCol cols ⟨⟨bk.pointer.data.drop (prefixFor started i).length⟩, bk.depth⟩)
        ((if first then acc ++ [hashEntryOf bk (prefixFor started i).length i] else acc) ++
          [setIdx i (bk, bv)]) false
    refine ⟨cols1, ?_, (insertCol_subset _ _).trans hsub,
      fun h => hnd (insertCol_nodup _ _ h), ?_⟩
    · rw [hshape, hassoc]
      rw [rowLoop_succ_pop started i ((pre ++ B').length - 1) ((pre ++ B') ++ [(bk, bv)])
        cols acc first bk bv bk bv hget (List.getLast?_concat _) hbm hbl hne]
      rw [List.dropLast_concat, hrl, rowAcc_concat]
      cases first <;> simp [List.append_assoc]
    · intro e he
      rcases List.mem_append.mp he with h | h
      · exact hmem e h
      · rw [List.mem_singleton.mp h]
        exact hsub (insertCol_mem _ _)

/-- Well-formedness of an array-rooted flat list, as the scan requires:
the list is one root entry followed by the concatenation of per-row blocks
in ascending row order; every block entry's pointer extends its own row
prefix, matches no later row's prefix, and is at least as long as every row
prefix it can be examined against. -/
abbrev BlocksWF (started : Option String) (blocks : List (List Entry)) : Prop :=
  (∀ a, a < blocks.length → ∀ e ∈ blocks.getD a [],
    strStartsWith e.1.pointer (prefixFor started a) = true) ∧
  (∀ b, b < blocks.length → ∀ a, a < b → ∀ e ∈ blocks.getD a [],
    strStartsWith e.1.pointer (prefixFor started b) = false) ∧
  (∀ b, b < blocks.length → ∀ a, a ≤ b → ∀ e ∈ blocks.getD a [],
    (prefixFor started b).length ≤ e.1.pointer.length)

/-- Correctness of the outer loop over the last `m` rows: with the
remaining entry list `r0 :: (blocks.take m).flatten`, the loop emits one
row per index, each holding exactly `rowAcc` of its block, and accumulates
columns monotonically without duplicates. -/
theorem asArrayLoop_spec (started : Option String) (r0 : Entry)
    (blocks : List (List Entry)) (hwf : BlocksWF started blocks) :
    ∀ (m : Nat), m ≤ blocks.length → ∀ (cols : List Column) (racc : List JsonArrayEntries),
    ∃ cols1,
      asArrayLoop started (List.range m).reverse (r0 :: (blocks.take m).flatten)
          ((r0 :: (blocks.take m).flatten).length - 1) cols racc =
        .ok ((racc ++ (List.range m).reverse.map
          (fun i => (⟨rowAcc started i true (blocks.getD i []), i⟩ : JsonArrayEntries))).reverse,
          cols1) ∧
      cols ⊆ cols1 ∧ (cols.Nodup → cols1.Nodup) ∧
      ∀ a, a < m → ∀ e ∈ blocks.getD a [],
        (⟨⟨e.1.pointer.data.drop (prefixFor started a).length⟩,
          e.1.depth⟩ : Column) ∈ cols1 := by
  obtain ⟨hmatch, hcross, hlen⟩ := hwf
  intro m
  induction m with
  | zero =>
    intro _ cols racc
    refine ⟨cols, ?_, fun x hx => hx, fun h => h, by omega⟩
    simp [asArrayLoop]
  | succ m ih =>
    intro hm cols racc
    have hmlt : m < blocks.length := by omega
    have hrange : (List.range (m + 1)).reverse = m :: (List.range m).reverse := by
      rw [List.range_succ, List.reverse_concat]
    have htake : blocks.take (m + 1) = blocks.take m ++ [blocks.getD m []] := by
      rw [List.take_succ, List.getElem?_eq_getElem hmlt,
        List.getD_eq_getElem blocks [] hmlt]
      rfl
    have hflat : (blocks.take (m + 1)).flatten =
        (blocks.take m).flatten ++ blocks.getD m [] := by
      rw [htake, List.flatten_append]
      simp
    have hjson : r0 :: (blocks.take (m + 1)).flatten =
        (r0 :: (blocks.take m).flatten) ++ blocks.getD m [] := by
      rw [hflat]
      rfl
    have hB : ∀ e ∈ blocks.getD m [],
        strStartsWith e.1.pointer (prefixFor started m) = true ∧
          (prefixFor started m).length ≤ e.1.pointer.length :=
      fun e he => ⟨hmatch m hmlt e he, hlen m hmlt m le_rfl e he⟩
    have hbreak : ∀ el, (r0 :: (blocks.take m).flatten).getLast? = some el →
        2 ≤ (r0 :: (blocks.take m).flatten).length →
        strStartsWith el.1.pointer (prefixFor started m) = false ∧
          (el.1.pointer = "" ∨ (prefixFor started m).length ≤ el.1.pointer.length) := by
      intro el hellast hlen2
      have hJ : (blocks.take m).flatten ≠ [] := by
        intro h0
        rw [h0] at hlen2
        simp at hlen2
      have hgl : (r0 :: (blocks.take m).flatten).getLast? =
          some ((blocks.take m).flatten.getLast hJ) := by
        rw [List.getLast?_eq_getLast_of_ne_nil (by simp), List.getLast_cons hJ]
      rw [hgl] at hellast
      have helmem : el ∈ (blocks.take m).flatten := by
        cases hellast
        exact List.getLast_mem hJ
      obtain ⟨l, hl, hel⟩ := List.mem_flatten.mp helmem
      obtain ⟨a, ha, hla⟩ := List.mem_iff_getElem.mp hl
      have ham : a < m := by
        have := ha
        rw [List.length_take] at this
        omega
      have halen : a < blocks.length := by
        have := ha
        rw [List.length_take] at this
        omega
      have hblock : el ∈ blocks.getD a [] := by
        rw [List.getD_eq_getElem blocks [] halen, ← List.getElem_take blocks, hla]
        exact hel
      exact ⟨hcross m hmlt a ham el hblock,
        Or.inr (hlen m hmlt a (le_of_lt ham) el hblock)⟩
    obtain ⟨cols1, hrl, hsub1, hnd1, hmem1⟩ :=
      rowLoop_spec started m (blocks.getD m []) hB
        (r0 :: (blocks.take m).flatten) (by simp) hbreak cols [] true
    obtain ⟨cols2, hloop, hsub2, hnd2, hmem2⟩ :=
      ih (le_of_lt hmlt) cols1
        (racc ++ [⟨rowAcc started m true (blocks.getD m []), m⟩])
    refine ⟨cols2, ?_, hsub1.trans hsub2, fun h => hnd2 (hnd1 h), ?_⟩
    · rw [hrange, hjson, asArrayLoop, hrl]
      simp only [List.nil_append]
      rw [hloop]
      rw [List.map_cons]
      simp
    · intro a ha e he
      rcases Nat.lt_or_ge a m with h | h
      · exact hmem2 a h e he
      · have : a = m := by omega
        subst this
        exact hsub2 (hmem1 e he)

/-- Master description of `as_array` on a well-formed array Parse Result
(one root entry followed by ascending contiguous row blocks): it succeeds,
returns one row per index in ascending order whose entries are exactly
`rowAcc` of that row's block, and a duplicate-free column list containing
every popped entry's column. -/
theorem asArray_spec (started : Option String) (r0 : Entry)
    (blocks : List (List Entry)) (pr : ParseResult)
    (hjson : pr.json = r0 :: blocks.flatten)
    (hcount : pr.root_array_len = blocks.length)
    (hroot : pr.root_value_type = ValueType.array)
    (hstart : pr.started_parsing_at = started)
    (hwf : BlocksWF started blocks) :
    ∃ cols1,
      asArray pr = .ok ((List.range blocks.length).map
        (fun i => (⟨rowAcc started i true (blocks.getD i []), i⟩ : JsonArrayEntries)), cols1) ∧
      cols1.Nodup ∧
      ∀ a, a < blocks.length → ∀ e ∈ blocks.getD a [],
        (⟨⟨e.1.pointer.data.drop (prefixFor started a).length⟩,
          e.1.depth⟩ : Column) ∈ cols1 := by
  obtain ⟨cols1, hloop, _, hnd, hmem⟩ :=
    asArrayLoop_spec started r0 blocks hwf blocks.length le_rfl [] []
  rw [List.take_length] at hloop
  refine ⟨cols1, ?_, hnd List.nodup_nil, hmem⟩
  rw [asArray, if_pos hroot, hjson, hstart, hcount]
  have husize : usizeSub1 (r0 :: blocks.flatten).length =
      (r0 :: blocks.flatten).length - 1 := by
    rw [usizeSub1, if_neg (by simp)]
  rw [husize, hloop]
  simp [List.map_reverse]

/-- Panic-freedom of the inner loop: with `j` in lockstep with the list
length (or the list empty) and every pointer either empty or at least as
long as the row prefix, the loop cannot panic; the remaining list is a
subset of the input and the lockstep invariant is preserved. -/
theorem rowLoop_no_panic (started : Option String) (i : Nat) :
    ∀ (j : Nat) (json : List Entry) (cols : List Column) (acc : List Entry) (first : Bool),
      (j = json.length - 1 ∨ json = []) →
      (∀ e ∈ json, e.1.pointer = "" ∨
        (prefixFor started i).length ≤ e.1.pointer.length) →
      ∃ json1 j1 cols1 acc1,
        rowLoop started i j json cols acc first = .ok (json1, j1, cols1, acc1) ∧
        (j1 = json1.length - 1 ∨ json1 = []) ∧ ∀ e ∈ json1, e ∈ json := by
  intro j
  induction j with
  | zero =>
    intro json cols acc first hinv _
    rw [rowLoop_zero]
    refine ⟨json, 0, cols, acc, rfl, ?_, fun e he => he⟩
    rcases hinv with h | h
    · exact Or.inl h
    · exact Or.inr h
  | succ j ih =>
    intro json cols acc first hinv hP
    cases json with
    | nil =>
      rw [rowLoop_nil]
      exact ⟨[], j + 1, cols, acc, rfl, Or.inr rfl, fun e he => he⟩
    | cons a as =>
      have hne : (a :: as) ≠ [] := by simp
      have hlen : (a :: as).length - 1 = j + 1 := by
        rcases hinv with h | h
        · omega
        · exact absurd h hne
      obtain ⟨el, hel⟩ : ∃ el, (a :: as).getLast? = some el :=
        ⟨_, List.getLast?_eq_getLast_of_ne_nil hne⟩
      obtain ⟨ek, ev⟩ := el
      have hmem : ((ek, ev) : Entry) ∈ (a :: as) := by
        rw [List.getLast?_eq_getLast_of_ne_nil hne] at hel
        have hinj := Option.some.inj hel
        rw [← hinj]
        exact List.getLast_mem hne
      have hget : (a :: as).get? (j + 1) = some (ek, ev) := by
        rw [List.get?_eq_getElem?, show j + 1 = (a :: as).length - 1 from hlen.symm,
          ← List.getLast?_eq_getElem?]
        exact hel
      have hdroplen : j = (a :: as).dropLast.length - 1 ∨ (a :: as).dropLast = [] := by
        left
        rw [List.length_dropLast]
        omega
      have hdropP : ∀ e ∈ (a :: as).dropLast, e.1.pointer = "" ∨
          (prefixFor started i).length ≤ e.1.pointer.length :=
        fun e he => hP e (List.dropLast_subset _ he)
      by_cases hemp : ek.pointer = ""
      · rw [rowLoop, hget]
        cases hmp : strStartsWith ek.pointer (prefixFor started i) with
        | false =>
          rw [hemp] at hmp
          simp only [hemp, if_true, ite_true, hmp, Bool.false_eq_true, if_false, ite_false]
          exact ⟨a :: as, j + 1, cols, acc, rfl, Or.inl hlen.symm, fun e he => he⟩
        | true =>
          rw [hemp] at hmp
          simp only [hemp, if_true, ite_true, hmp, hel]
          obtain ⟨json1, j1, cols1, acc1, hrl, hinv1, hsub1⟩ :=
            ih (a :: as).dropLast cols
              ((if first then acc ++ [hashEntryOf ek (prefixFor started i).length i]
                else acc) ++ [setIdx i (ek, ev)]) false hdroplen hdropP
          rw [hrl]
          exact ⟨json1, j1, cols1, acc1, rfl, hinv1,
            fun e he => List.dropLast_subset _ (hsub1 e he)⟩
      · have hple : (prefixFor started i).length ≤ ek.pointer.length := by
          rcases hP _ hmem with h | h
          · exact absurd h hemp
          · exact h
        rw [rowLoop, hget]
        cases hmp : strStartsWith ek.pointer (prefixFor started i) with
        | false =>
          simp only [hemp, if_false, ite_false, not_lt.mpr hple, hmp,
            Bool.false_eq_true, ite_true]
          exact ⟨a :: as, j + 1, _, acc, rfl, Or.inl hlen.symm, fun e he => he⟩
        | true =>
          simp only [hemp, if_false, ite_false, not_lt.mpr hple, hmp, ite_true, hel]
          obtain ⟨json1, j1, cols1, acc1, hrl, hinv1, hsub1⟩ :=
            ih (a :: as).dropLast
              (insertCol cols ⟨⟨ek.pointer.data.drop (prefixFor started i).length⟩, ek.depth⟩)
              ((if first then acc ++ [hashEntryOf ek (prefixFor started i).length i]
                else acc) ++ [setIdx i (ek, ev)]) false hdroplen hdropP
          rw [hrl]
          exact ⟨json1, j1, cols1, acc1, rfl, hinv1,
            fun e he => List.dropLast_subset _ (hsub1 e he)⟩

/-- Panic-freedom of the outer loop under the pointer-length bound for all
remaining row indices. -/
theorem asArrayLoop_no_panic (started : Option String) :
    ∀ (is : List Nat) (json : List Entry) (j : Nat) (cols : List Column)
      (racc : List JsonArrayEntries),
      (j = json.length - 1 ∨ json = []) →
      (∀ e ∈ json, e.1.pointer = "" ∨
        ∀ i ∈ is, (prefixFor started i).length ≤ e.1.pointer.length) →
      ∃ out, asArrayLoop started is json j cols racc = .ok out := by
  intro is
  induction is with
  | nil =>
    intro json j cols racc _ _
    exact ⟨_, rfl⟩
  | cons i is ih =>
    intro json j cols racc hinv hP
    obtain ⟨json1, j1, cols1, acc1, hrl, hinv1, hsub1⟩ :=
      rowLoop_no_panic started i j json cols [] true hinv
        (fun e he => (hP e he).imp_right fun h => h i (List.mem_cons_self i is))
    rw [asArrayLoop, hrl]
    exact ih json1 j1 cols1 (racc ++ [⟨acc1, i⟩]) hinv1
      fun e he => (hP e (hsub1 e he)).imp_right
        fun h i1 hi1 => h i1 (List.mem_cons_of_mem i hi1)

/-- C10 (amended): `as_array` returns a result (no panic) on every
array-rooted Parse Result in which each entry's pointer is either empty or
at least as long as every row prefix `"<started>/<i>"` for
`i < root_array_len` — in particular when the flat entry list is empty or
`root_array_len = 0`, where the condition is vacuous.  (Without the length
bound the slice `&pointer[prefix_len..]` can panic; see the
counterexample.) -/
theorem asArray_total_amended (pr : ParseResult)
    (hroot : pr.root_value_type = ValueType.array)
    (hp : ∀ e ∈ pr.json, e.1.pointer = "" ∨
      ∀ i, i < pr.root_array_len →
        (prefixFor pr.started_parsing_at i).length ≤ e.1.pointer.length) :
    ∃ out, asArray pr = .ok out := by
  rw [asArray, if_pos hroot]
  apply asArrayLoop_no_panic
  · rcases hj : pr.json with _ | ⟨a, as⟩
    · exact Or.inr rfl
    · left
      rw [usizeSub1, if_neg (by simp)]
  · intro e he
    refine (hp e he).imp_right fun h i hi => h i ?_
    rw [List.mem_reverse, List.mem_range] at hi
    exact hi

/-- A concrete empty array view: no entries at all, zero rows. -/
def prEmptyArr : ParseResult :=
  { json := [], max_json_depth := 1, parsing_max_depth := 10
    root_value_type := ValueType.array, started_parsing_at := none
    root_array_len := 0 }

/-- The §8 scenario `[{"a":1,"b":null},{"a":2,"b":3}]` as row blocks. -/
def blocksW : List (List Entry) :=
  [[(⟨"/0/a", ValueType.number, 2, 0⟩, some (.lit "1")),
    (⟨"/0/b", ValueType.null, 2, 0⟩, none)],
   [(⟨"/1/a", ValueType.number, 2, 0⟩, some (.lit "2")),
    (⟨"/1/b", ValueType.number, 2, 0⟩, some (.lit "3"))]]

/-- The §8 scenario's Parse Result: root entry followed by the two blocks. -/
def prScenario : ParseResult :=
  { json := (⟨"", ValueType.array, 1, 0⟩, none) :: blocksW.flatten
    max_json_depth := 2, parsing_max_depth := 10
    root_value_type := ValueType.array, started_parsing_at := none
    root_array_len := 2 }

/-- Witness for the amended C10: totality holds at the empty edge case and
at the §8 scenario. -/
theorem asArray_total_amended_witness :
    (∃ out, asArray prEmptyArr = .ok out) ∧ ∃ out, asArray prScenario = .ok out :=
  ⟨asArray_total_amended prEmptyArr rfl (by decide),
    asArray_total_amended prScenario rfl (by decide)⟩

/-- The row list produced on a well-formed input, read at index `a`. -/
theorem rows_getD (started : Option String) (blocks : List (List Entry))
    (a : Nat) (ha : a < blocks.length) :
    ((List.range blocks.length).map
      (fun i => (⟨rowAcc started i true (blocks.getD i []), i⟩ : JsonArrayEntries))).getD a
        ⟨[], 0⟩ =
      ⟨rowAcc started a true (blocks.getD a []), a⟩ := by
  rw [List.getD_eq_getElem _ _ (by simpa using ha), List.getElem_map]
  rw [List.getElem_range]

/-- C1 (amended): on a well-formed array Parse Result — one root entry at
position 0 (never examined, since the scan requires `j > 0`) followed by
the ascending contiguous row blocks — `as_array` succeeds and, as
multisets, row `a`'s entries are exactly block `a`'s entries with their
`index` field set to `a`, plus exactly one synthesized `#` entry whose
value is `a`'s decimal string when the block is non-empty (an empty block
yields an empty row with no `#` entry).  No entry is assigned to two rows,
no entry is lost except the position-0 root entry. -/
theorem asArray_row_partition_amended (started : Option String) (r0 : Entry)
    (blocks : List (List Entry)) (pr : ParseResult)
    (hjson : pr.json = r0 :: blocks.flatten)
    (hcount : pr.root_array_len = blocks.length)
    (hroot : pr.root_value_type = ValueType.array)
    (hstart : pr.started_parsing_at = started)
    (hwf : BlocksWF started blocks) :
    ∃ rows cols1, asArray pr = .ok (rows, cols1) ∧
      rows.length = blocks.length ∧
      ∀ a, a < blocks.length →
        ((rows.getD a ⟨[], 0⟩).entries : Multiset Entry) =
          ((((blocks.getD a []).getLast?.map
            (fun bl => hashEntryOf bl.1 (prefixFor started a).length a)).toList :
              List Entry) : Multiset Entry) +
          (((blocks.getD a []).map (setIdx a) : List Entry) : Multiset Entry) := by
  obtain ⟨cols1, hok, _, _⟩ := asArray_spec started r0 blocks pr hjson hcount hroot hstart hwf
  refine ⟨_, cols1, hok, by simp, ?_⟩
  intro a ha
  rw [rows_getD started blocks a ha]
  show ((rowAcc started a true (blocks.getD a []) : List Entry) : Multiset Entry) = _
  rw [rowAcc]
  cases hB : (blocks.getD a []).getLast? with
  | none =>
    rw [List.getLast?_eq_none_iff.mp hB]
    simp
  | some bl =>
    simp only [Option.map_some', Option.toList_some, if_true, ite_true]
    rw [← Multiset.coe_reverse ((blocks.getD a []).map (setIdx a))]
    exact (Multiset.coe_add _ _).symm

/-- Witness for the amended C1 at the §8 scenario. -/
theorem asArray_row_partition_amended_witness :
    ∃ rows cols1, asArray prScenario = .ok (rows, cols1) ∧
      rows.length = blocksW.length ∧
      ∀ a, a < blocksW.length →
        ((rows.getD a ⟨[], 0⟩).entries : Multiset Entry) =
          ((((blocksW.getD a []).getLast?.map
            (fun bl => hashEntryOf bl.1 (prefixFor none a).length a)).toList :
              List Entry) : Multiset Entry) +
          (((blocksW.getD a []).map (setIdx a) : List Entry) : Multiset Entry) :=
  asArray_row_partition_amended none _ blocksW prScenario rfl rfl rfl rfl (by decide)

/-- C6: on a well-formed array Parse Result the returned row list is
ascending by row index (the scan discovers rows in descending order and
reverses once at the end), and within each row the entries after the
leading synthesized `#` entry are the row's block in the reverse of its
original parse order (the per-row vector is never reversed). -/
theorem asArray_ordering (started : Option String) (r0 : Entry)
    (blocks : List (List Entry)) (pr : ParseResult)
    (hjson : pr.json = r0 :: blocks.flatten)
    (hcount : pr.root_array_len = blocks.length)
    (hroot : pr.root_value_type = ValueType.array)
    (hstart : pr.started_parsing_at = started)
    (hwf : BlocksWF started blocks) :
    ∃ rows cols1, asArray pr = .ok (rows, cols1) ∧
      rows.map JsonArrayEntries.index = List.range blocks.length ∧
      ∀ a, a < blocks.length →
        (rows.getD a ⟨[], 0⟩).entries =
          (((blocks.getD a []).getLast?.map
            (fun bl => hashEntryOf bl.1 (prefixFor started a).length a)).toList :
              List Entry) ++
          ((blocks.getD a []).map (setIdx a)).reverse := by
  obtain ⟨cols1, hok, _, _⟩ := asArray_spec started r0 blocks pr hjson hcount hroot hstart hwf
  refine ⟨_, cols1, hok, ?_, ?_⟩
  · rw [List.map_map]
    exact List.map_id _
  · intro a ha
    rw [rows_getD started blocks a ha]
    show rowAcc started a true (blocks.getD a []) = _
    rw [rowAcc]
    cases hB : (blocks.getD a []).getLast? with
    | none =>
      rw [List.getLast?_eq_none_iff.mp hB]
      simp
    | some bl =>
      simp

/-- Witness for C6 at the §8 scenario. -/
theorem asArray_ordering_witness :
    ∃ rows cols1, asArray prScenario = .ok (rows, cols1) ∧
      rows.map JsonArrayEntries.index = List.range blocksW.length ∧
      ∀ a, a < blocksW.length →
        (rows.getD a ⟨[], 0⟩).entries =
          (((blocksW.getD a []).getLast?.map
            (fun bl => hashEntryOf bl.1 (prefixFor none a).length a)).toList :
              List Entry) ++
          ((blocksW.getD a []).map (setIdx a)).reverse :=
  asArray_ordering none _ blocksW prScenario rfl rfl rfl rfl (by decide)

/-- C7: on a well-formed array Parse Result the returned column list has no
two Columns with the same `(name, depth)` pair (Column equality is exactly
that pair — value and row do not exist on a Column), and every path suffix
appearing in a row through a popped entry — the pointer minus the row
prefix, paired with the entry's depth — has exactly one Column in the list.
(The synthesized `#` entries are pseudo-columns, not recorded in the
schema.) -/
theorem asArray_column_identity (started : Option String) (r0 : Entry)
    (blocks : List (List Entry)) (pr : ParseResult)
    (hjson : pr.json = r0 :: blocks.flatten)
    (hcount : pr.root_array_len = blocks.length)
    (hroot : pr.root_value_type = ValueType.array)
    (hstart : pr.started_parsing_at = started)
    (hwf : BlocksWF started blocks) :
    ∃ rows cols1, asArray pr = .ok (rows, cols1) ∧
      cols1.Nodup ∧
      ∀ a, a < blocks.length → ∀ e ∈ blocks.getD a [],
        cols1.count (⟨⟨e.1.pointer.data.drop (prefixFor started a).length⟩,
          e.1.depth⟩ : Column) = 1 := by
  obtain ⟨cols1, hok, hnd, hmem⟩ :=
    asArray_spec started r0 blocks pr hjson hcount hroot hstart hwf
  exact ⟨_, cols1, hok, hnd,
    fun a ha e he => List.count_eq_one_of_mem hnd (hmem a ha e he)⟩

/-- Witness for C7 at the §8 scenario. -/
theorem asArray_column_identity_witness :
    ∃ rows cols1, asArray prScenario = .ok (rows, cols1) ∧
      cols1.Nodup ∧
      ∀ a, a < blocksW.length → ∀ e ∈ blocksW.getD a [],
        cols1.count (⟨⟨e.1.pointer.data.drop (prefixFor none a).length⟩,
          e.1.depth⟩ : Column) = 1 :=
  asArray_column_identity none _ blocksW prScenario rfl rfl rfl rfl (by decide)
